import Mathlib

/-!
Verification of the EnglishHelper input pipeline.

The definitions below are a shallow embedding of the current revision of the
pipeline module (`main.pyw`); the files under `unnamed/` are earlier revisions
of the same module and are superseded by it.  Python floats measuring seconds
are modelled as natural numbers measuring milliseconds.  Fire-and-forget
threads are modelled by recording the calls the spawned task performs.
-/

/-! ## Word pipeline: `process_word_parallel` and `worker_trans` -/

/-- Abstract translation result; `cached` models the `res.get("cached")` flag. -/
structure TransRes where
  payload : Nat
  cached : Bool
deriving DecidableEq

/-- External collaborators of `process_word_parallel`:
`is_word_too_simple`, `check_cache_only` and `fetch_word_translation`. -/
structure WordEnv where
  is_word_too_simple : String → Nat → Bool × String
  check_cache_only : String → Option TransRes
  fetch_word_translation : String → Option TransRes

/-- Observable calls made while processing one completed word. -/
structure WordEffects where
  resets : List String
  transUI : List (Option TransRes × String)
  fetchTranslationCalls : List String
  imageTasks : List String
  fullDataTasks : List String
deriving DecidableEq

def emptyWordEffects : WordEffects := ⟨[], [], [], [], []⟩

/-- `worker_trans`: fetches the word translation once and presents it with tag
`"API"` when a fresh (non-cached) result arrived, `"—"` otherwise. -/
def worker_trans (env : WordEnv) (tgt : String) : WordEffects :=
  let res := env.fetch_word_translation tgt
  { emptyWordEffects with
    fetchTranslationCalls := [tgt]
    transUI := [(res, if res ≠ none ∧ (res.map TransRes.cached).getD false = false then "API" else "—")] }

/-- `process_word_parallel` from `main.pyw`: too-simple filter, display reset,
synchronous cache-only check (on hit, present with tag `"Cache"` and spawn no
translation fetch; on miss, spawn `worker_trans`), then unconditionally spawn
the image task and the full-dictionary-data task. -/
def process_word_parallel (env : WordEnv) (w : String) (vocabLevel : Nat) : WordEffects :=
  let ts := env.is_word_too_simple w vocabLevel
  if ts.1 then emptyWordEffects
  else
    let tgt := ts.2
    let transPart :=
      match env.check_cache_only tgt with
      | some cachedRes => { emptyWordEffects with transUI := [(some cachedRes, "Cache")] }
      | none => worker_trans env tgt
    { transPart with
      resets := [tgt]
      imageTasks := [tgt]
      fullDataTasks := [tgt] }

/-! ## Clipboard: `handle_clipboard_word` -/

/-- Python `str.strip()`: drop whitespace from both ends. -/
def pyStrip (s : String) : String :=
  String.mk (((s.toList.dropWhile Char.isWhitespace).reverse.dropWhile Char.isWhitespace).reverse)

/-- Is the character in `[a-zA-Z]`? (the `re.match(r"^[a-zA-Z]$", ...)` class). -/
def isAsciiAlpha (c : Char) : Bool :=
  ('a' ≤ c && c ≤ 'z') || ('A' ≤ c && c ≤ 'Z')

/-- Full match of the regex `^[a-zA-Z\-']+$` (the validated text was stripped
first, so the `$`-before-trailing-newline subtlety of `re` cannot occur). -/
def matchesWordPattern (s : String) : Bool :=
  decide (0 < s.length) && s.toList.all (fun c => isAsciiAlpha c || decide (c = '-') || decide (c = '\''))

def clipboardWindow : Nat := 500

/-- `handle_clipboard_word` from `main.pyw`.  Input: the throttle state
`CLIPBOARD_LAST_TIME`, the current time, and the clipboard read (`none` models
a `pyperclip.paste()` failure).  Output: the new `CLIPBOARD_LAST_TIME` and the
word dispatched to `process_word_async`, if any.  The brief
`time.sleep(0.02)` has no semantic effect and is not modelled. -/
def handle_clipboard_word (last : Nat) (now : Nat) (clip : Option String) : Nat × Option String :=
  if now - last < clipboardWindow then (last, none)
  else
    let last' := now
    match clip with
    | none => (last', none)
    | some text0 =>
      if text0 = "" then (last', none)
      else
        let text := pyStrip text0
        if ¬ (0 < text.length ∧ text.length ≤ 50) then (last', none)
        else if ¬ (matchesWordPattern text = true) then (last', none)
        else (last', some text)

/-- A sequence of clipboard events folded through the throttle state;
collects the dispatched words. -/
def runClipboard (last : Nat) : List (Nat × Option String) → Nat × List String
  | [] => (last, [])
  | (t, clip) :: rest =>
    let step := handle_clipboard_word last t clip
    let tail := runClipboard step.1 rest
    (tail.1, (match step.2 with | some w => [w] | none => []) ++ tail.2)

/-! ## Layout cache: `is_english_layout` -/

structure LayoutCache where
  isEnglish : Bool
  lastCheck : Nat
deriving DecidableEq

def layoutTTL : Nat := 500

/-- `is_english_layout` from `main.pyw`.  `query` is the outcome of the WinAPI
layout query: `some b` on success, `none` when it raises.  Returns the value
produced, the new `_layout_cache`, and whether the external source was
queried. -/
def is_english_layout (st : LayoutCache) (now : Nat) (query : Option Bool) : Bool × LayoutCache × Bool :=
  if now - st.lastCheck < layoutTTL then (st.isEnglish, st, false)
  else
    match query with
    | some isEn => (isEn, ⟨isEn, now⟩, true)
    | none => (true, st, true)

/-- The claim C5 as stated: the external layout source is queried at most once
per TTL window, i.e. two consecutive calls that both query are at least
`layoutTTL` apart. -/
def layoutAtMostOncePerWindow : Prop :=
  ∀ (st : LayoutCache) (now1 now2 : Nat) (q1 q2 : Option Bool),
    now1 ≤ now2 →
    (is_english_layout st now1 q1).2.2 = true →
    (is_english_layout (is_english_layout st now1 q1).2.1 now2 q2).2.2 = true →
    now1 + layoutTTL ≤ now2

/-! ## Audio readiness synchronizer: `_instant_auto_pronounce` -/

/-- Environment of `_instant_auto_pronounce`: `available` is
`PLAYSOUND_AVAILABLE`; `validAt k` is the cache predicate
`os.path.exists(p) and os.path.getsize(p) > 1000` at the k-th poll;
`playFails` models `playsound` raising on the cached file. -/
structure AudioEnv where
  available : Bool
  validAt : Nat → Bool
  playFails : Bool

/-- Counts of the observable calls of one pronunciation request. -/
structure AudioEffects where
  polls : Nat
  plays : Nat
  streams : Nat
deriving DecidableEq

/-- The `for attempt in range(max_wait)` loop of `_instant_auto_pronounce`:
on a valid cache, play it (on a play failure, `break` out to the streaming
fallback); when the bound is exhausted, fall back to
`streaming_play_and_cache`.  `polled` counts polls made so far, `fuel` the
remaining attempts. -/
def pronounceLoop (env : AudioEnv) : Nat → Nat → AudioEffects
  | polled, 0 => ⟨polled, 0, 1⟩
  | polled, fuel + 1 =>
    if env.validAt polled then
      if env.playFails then ⟨polled + 1, 1, 1⟩ else ⟨polled + 1, 1, 0⟩
    else pronounceLoop env (polled + 1) fuel

/-- `_instant_auto_pronounce` from `main.pyw`: nothing happens when the
playsound backend is missing; otherwise poll the cache up to 20 times.  Any
exception escaping the body is swallowed by the outer handler, so the function
always returns (it never propagates a failure). -/
def instant_auto_pronounce (env : AudioEnv) : AudioEffects :=
  if env.available then pronounceLoop env 0 20 else ⟨0, 0, 0⟩

/-- The claim C6 as stated: at most 20 polls; a cache that becomes valid
within the bound yields exactly one playback call and no streaming fallback;
a cache that never becomes valid yields exactly one streaming call. -/
def audioClaim : Prop :=
  ∀ env : AudioEnv,
    (instant_auto_pronounce env).polls ≤ 20 ∧
    (env.available = true → (∃ k, k < 20 ∧ env.validAt k = true) →
      (instant_auto_pronounce env).plays = 1 ∧ (instant_auto_pronounce env).streams = 0) ∧
    (env.available = true → (∀ k, k < 20 → env.validAt k = false) →
      (instant_auto_pronounce env).streams = 1 ∧ (instant_auto_pronounce env).plays = 0)

/-! ## Text buffer

Modelled from the spec: `TextEditorSimulator` (`editor.py`) is not among the
provided sources; §3/§4.1 describe it as an ordered character sequence with a
cursor index `0 ≤ cursor ≤ length` and cursor-bounded `insert`, `backspace`,
`delete`, `moveLeft`, `moveRight`, `clear`, `text` operations. -/

structure Editor where
  text : List Char
  cursor : Nat
deriving DecidableEq

def Editor.empty : Editor := ⟨[], 0⟩

/-- Modelled from the spec: insert a character at the cursor, cursor advances. -/
def Editor.insert (ed : Editor) (c : Char) : Editor :=
  ⟨ed.text.take ed.cursor ++ c :: ed.text.drop ed.cursor, ed.cursor + 1⟩

/-- Modelled from the spec: remove the character before the cursor; no-op at
the left edge. -/
def Editor.backspace (ed : Editor) : Editor :=
  if ed.cursor = 0 then ed
  else ⟨ed.text.take (ed.cursor - 1) ++ ed.text.drop ed.cursor, ed.cursor - 1⟩

/-- Modelled from the spec: remove the character at the cursor. -/
def Editor.delete (ed : Editor) : Editor :=
  ⟨ed.text.take ed.cursor ++ ed.text.drop (ed.cursor + 1), ed.cursor⟩

/-- Modelled from the spec: move the cursor left; no-op at the left edge. -/
def Editor.moveLeft (ed : Editor) : Editor :=
  ⟨ed.text, ed.cursor - 1⟩

/-- Modelled from the spec: move the cursor right; no-op at the right edge. -/
def Editor.moveRight (ed : Editor) : Editor :=
  ⟨ed.text, min (ed.cursor + 1) ed.text.length⟩

/-- Modelled from the spec: clear resets text and cursor. -/
def Editor.clear (_ : Editor) : Editor := Editor.empty

def Editor.getText (ed : Editor) : String := String.mk ed.text

/-! ## Key events: `on_key_event` -/

/-- Python `str.lower` restricted to the alphabets the key names use:
ASCII `A-Z` and Cyrillic `А-Я`/`Ё` map to their lowercase forms. -/
def lowerChar (c : Char) : Char :=
  if 'A' ≤ c ∧ c ≤ 'Z' then Char.ofNat (c.toNat + 32)
  else if 'А' ≤ c ∧ c ≤ 'Я' then Char.ofNat (c.toNat + 32)
  else if c = 'Ё' then 'ё'
  else c

def lowerStr (s : String) : String := String.mk (s.toList.map lowerChar)

/-- `KEYBOARD_BUG_FIX`: the zip of the Russian keyboard row string with the
QWERTY row string, as in the source. -/
def keyboard_bug_fix : List (Char × Char) :=
  "йцукенгшщзхъфывапролджэячсмитьбю".toList.zip "qwertyuiop[]asdfghjkl;'zxcvbnm,.".toList

/-- `if key_lower in KEYBOARD_BUG_FIX: key = KEYBOARD_BUG_FIX[key_lower]` —
the dict keys are the single-character Russian strings. -/
def fixKey (keyLower : String) : Option String :=
  match keyLower.toList with
  | [c] =>
    match keyboard_bug_fix.lookup c with
    | some e => some (String.mk [e])
    | none => none
  | _ => none

/-- The key symbol actually processed: `e.name` corrected through
`KEYBOARD_BUG_FIX` (looked up by the lowercased name). -/
def normKey (name : String) : String :=
  match fixKey (lowerStr name) with
  | some k => k
  | none => name

/-- The delimiter list of the `SENTENCE_FINISHED` guard:
`[" ", ".", "!", "?", ","]`. -/
def finishedSkipDelims : List Char := [' ', '.', '!', '?', ',']

/-- The word-delimiter list `[" ", ".", ",", "!", "?"]`. -/
def wordDelims : List Char := [' ', '.', ',', '!', '?']

/-- The sentence-delimiter list `[".", "!", "?"]`. -/
def sentenceDelims : List Char := ['.', '!', '?']

/-- A keyboard event together with the environment observed while handling it
(`is_english_layout()` and the Ctrl/Alt modifier probes). -/
structure KEvent where
  etype : String
  name : String
  isEnglish : Bool
  ctrl : Bool
  alt : Bool

/-- The pipeline state mutated by `on_key_event`: the `EDITOR`, the word
accumulator `BUFFER` and the `SENTENCE_FINISHED` flag. -/
structure KState where
  editor : Editor
  buffer : String
  finished : Bool
deriving DecidableEq

/-- Result of one `on_key_event` call: the new state, the words flushed to
`process_word_async`, and the `trigger_sentence_update` notification
(`some need_translate` when `update_needed` was set, `none` otherwise). -/
structure KOut where
  state : KState
  words : List String
  notify : Option Bool

/-- `on_key_event` from `main.pyw`. -/
def on_key_event (st : KState) (e : KEvent) : KOut :=
  if e.etype = "down" then ⟨st, [], none⟩
  else if e.isEnglish = false then ⟨st, [], none⟩
  else if e.ctrl || e.alt then ⟨st, [], none⟩
  else
    let key := normKey e.name
    let keyLower := lowerStr e.name
    match key.toList with
    | [c] =>
      let pre : Editor × Bool :=
        if st.finished ∧ c ∉ finishedSkipDelims then (st.editor.clear, false)
        else (st.editor, st.finished)
      let ed := pre.1.insert c
      if isAsciiAlpha c then
        ⟨⟨ed, st.buffer.push c, pre.2⟩, [], some false⟩
      else if c ∈ wordDelims then
        let flushed : List String × String :=
          if st.buffer = "" then ([], st.buffer) else ([st.buffer], "")
        ⟨⟨ed, flushed.2, if c ∈ sentenceDelims then true else pre.2⟩, flushed.1, some true⟩
      else
        ⟨⟨ed, st.buffer, pre.2⟩, [], some false⟩
    | _ =>
      if keyLower = "space" then
        let flushed : List String × String :=
          if st.buffer = "" then ([], st.buffer) else ([st.buffer], "")
        ⟨⟨st.editor.insert ' ', flushed.2, st.finished⟩, flushed.1, some true⟩
      else if keyLower = "enter" then
        let flushed : List String × String :=
          if st.buffer = "" then ([], st.buffer) else ([st.buffer], "")
        ⟨⟨st.editor.insert '\n', flushed.2, true⟩, flushed.1, some true⟩
      else if keyLower = "backspace" then
        ⟨⟨st.editor.backspace, if st.buffer = "" then st.buffer else st.buffer.dropRight 1, false⟩, [], some false⟩
      else if keyLower = "delete" then
        ⟨⟨st.editor.delete, st.buffer, false⟩, [], some false⟩
      else if keyLower = "left" then
        ⟨⟨st.editor.moveLeft, st.buffer, st.finished⟩, [], some false⟩
      else if keyLower = "right" then
        ⟨⟨st.editor.moveRight, st.buffer, st.finished⟩, [], some false⟩
      else ⟨st, [], none⟩

def initKState : KState := ⟨Editor.empty, "", false⟩

def runKeys (st : KState) : List KEvent → KState
  | [] => st
  | e :: rest => runKeys (on_key_event st e).state rest

/-- The C8 invariant, decidably: `SENTENCE_FINISHED` implies an empty word
accumulator. -/
def finishedInv (st : KState) : Bool :=
  !st.finished || decide (st.buffer = "")

/-- A key-up event delivering the single literal character `c` with the
target layout active and no modifiers held. -/
def mkLiteralEvent (c : Char) : KEvent :=
  ⟨"up", String.mk [c], true, false, false⟩

/-! ## Sentence-translation scheduler: `trigger_sentence_update`

Timed trace model.  The state mirrors the globals of `main.pyw`: the editor
text read by the timer callback (`buffer`), the timers created so far
(`count`, with per-index schedule times and statuses), the handle
`TRANSLATION_TIMER`, and the list of executed timer callbacks (`fires`,
recording the timer index and the trimmed text it read).  A `threading.Timer`
can be cancelled only while it is still `pending`; once its delay elapsed and
the callback entered execution (`started`) a cancel is a no-op. -/

inductive TStatus
  | pending
  | cancelled
  | started
  | fired
deriving DecidableEq

structure SState where
  buffer : String
  count : Nat
  sched : Nat → Nat
  status : Nat → TStatus
  handle : Option Nat
  fires : List (Nat × String)

def debounceDelay : Nat := 100

def initSState : SState := ⟨"", 0, fun _ => 0, fun _ => .pending, none, []⟩

/-- `trigger_sentence_update` (the timer-management part under
`_translation_lock`): cancel the timer held in `TRANSLATION_TIMER` (effective
only while it is pending), and when `need_translate` start a fresh timer and
store it in the handle. -/
def trigger_sentence_update (t : Nat) (need : Bool) (st : SState) : SState :=
  let st1 :=
    match st.handle with
    | some j =>
      if st.status j = .pending then
        { st with status := fun k => if k = j then .cancelled else st.status k }
      else st
    | none => st
  if need then
    { st1 with
      count := st1.count + 1
      sched := fun k => if k = st1.count then t else st1.sched k
      status := fun k => if k = st1.count then .pending else st1.status k
      handle := some st1.count }
  else st1

/-- Atomic actions of a scheduler trace: `event s need` is one key event
(the editor now reads `s`, then `trigger_sentence_update` runs with
`need_translate = need`); `tbegin j` is timer `j`'s delay elapsing and its
callback entering execution; `tfire j` is that callback reading the buffer
and finishing (issuing the network fetch when the trimmed text is
non-empty). -/
inductive Act
  | event : String → Bool → Act
  | tbegin : Nat → Act
  | tfire : Nat → Act

def okAct (t : Nat) (st : SState) : Act → Bool
  | .event _ _ => true
  | .tbegin j =>
    decide (j < st.count) && decide (st.status j = .pending) &&
      decide (st.sched j + debounceDelay ≤ t)
  | .tfire j => decide (j < st.count) && decide (st.status j = .started)

def stepAct (t : Nat) (st : SState) : Act → SState
  | .event s need => trigger_sentence_update t need { st with buffer := s }
  | .tbegin j =>
    if okAct t st (.tbegin j) then
      { st with status := fun k => if k = j then .started else st.status k }
    else st
  | .tfire j =>
    if okAct t st (.tfire j) then
      { st with
        status := fun k => if k = j then .fired else st.status k
        fires := st.fires ++ [(j, pyStrip st.buffer)] }
    else st

def runS (st : SState) : List (Nat × Act) → SState
  | [] => st
  | (t, a) :: rest => runS (stepAct t st a) rest

/-- A trace is valid when its times are nondecreasing and every action is
enabled in the state it executes in. -/
def validS (last : Nat) (st : SState) : List (Nat × Act) → Bool
  | [] => true
  | (t, a) :: rest => decide (last ≤ t) && okAct t st a && validS t (stepAct t st a) rest

/-- The network calls actually issued: fired callbacks whose trimmed text was
non-empty (`fetch_sentence_translation`); an empty trim presents the
placeholder instead. -/
def networkCalls (st : SState) : List (Nat × String) :=
  st.fires.filter (fun p => decide (p.2 ≠ ""))

/-- Times of the `need_translate = true` notifications (boundary events) of a
trace. -/
def bnds : List (Nat × Act) → List Nat
  | [] => []
  | (t, .event _ need) :: rest => if need then t :: bnds rest else bnds rest
  | (_, .tbegin _) :: rest => bnds rest
  | (_, .tfire _) :: rest => bnds rest

/-- The `need` flag of the last event action of a trace, if any. -/
def lastEvNeed : List (Nat × Act) → Option Bool
  | [] => none
  | (_, .event _ need) :: rest =>
    match lastEvNeed rest with
    | some b => some b
    | none => some need
  | (_, .tbegin _) :: rest => lastEvNeed rest
  | (_, .tfire _) :: rest => lastEvNeed rest

/-- No event actions at all in the trace. -/
def noEvents : List (Nat × Act) → Bool
  | [] => true
  | (_, .event _ _) :: _ => false
  | (_, .tbegin _) :: rest => noEvents rest
  | (_, .tfire _) :: rest => noEvents rest

/-- Consecutive boundary times less than the debounce delay apart. -/
def gapsOK : List Nat → Bool
  | [] => true
  | [_] => true
  | a :: b :: rest => decide (b < a + debounceDelay) && gapsOK (b :: rest)

/-- `TRANSLATION_TIMER` always holds the most recently created timer. -/
def HandleInv (st : SState) : Prop :=
  st.handle = (if st.count = 0 then none else some (st.count - 1))

/-- Every timer but the most recent one has been cancelled. -/
def NonLastCancelled (st : SState) : Prop :=
  ∀ j, j + 1 < st.count → st.status j = .cancelled

/-- The most recent timer is still pending or already cancelled. -/
def LastPC (st : SState) : Prop :=
  ∀ j, j + 1 = st.count → (st.status j = .pending ∨ st.status j = .cancelled)

/-- If the most recent timer is pending, the next boundary event comes before
its delay can elapse. -/
def HeadGap (st : SState) (tr : List (Nat × Act)) : Prop :=
  ∀ β bs, bnds tr = β :: bs → st.count ≠ 0 → st.status (st.count - 1) = .pending →
    β < st.sched (st.count - 1) + debounceDelay

/-- The executed-callback list is empty unless the most recent timer has
fired, in which case it holds exactly that one callback's read. -/
def FiresLink (st : SState) : Prop :=
  (st.count = 0 → st.fires = []) ∧
  (st.count ≠ 0 →
    st.fires = (if st.status (st.count - 1) = .fired then [(st.count - 1, pyStrip st.buffer)] else []))

/-- The claim C1 as stated: a valid trace whose event actions end with a
boundary, with consecutive boundaries within the debounce delay, and whose
final timer has executed, issues exactly one sentence-translation fetch. -/
def debounceClaim : Prop :=
  ∀ tr : List (Nat × Act),
    validS 0 initSState tr = true →
    bnds tr ≠ [] →
    gapsOK (bnds tr) = true →
    lastEvNeed tr ≠ some false →
    (runS initSState tr).status ((bnds tr).length - 1) = .fired →
    (networkCalls (runS initSState tr)).length = 1

/-- The claim C2 as stated: in every valid trace, only the most recently
scheduled timer ever performs its network call. -/
def onlyLastCallsClaim : Prop :=
  ∀ tr : List (Nat × Act),
    validS 0 initSState tr = true →
    ∀ p ∈ networkCalls (runS initSState tr), p.1 + 1 = (runS initSState tr).count

/-! ## Concrete instances used by the example theorems -/

/-- A word environment whose cache-only lookup hits on `"hello"`. -/
def envCacheHit : WordEnv :=
  ⟨fun w _ => (false, w), fun t => if t = "hello" then some ⟨7, true⟩ else none, fun _ => none⟩

/-- A word environment with an empty cache. -/
def envCacheMiss : WordEnv :=
  ⟨fun w _ => (false, w), fun _ => none, fun _ => some ⟨3, false⟩⟩

/-- An audio environment: backend present, cache valid at once, playback
succeeds. -/
def envAudioOk : AudioEnv := ⟨true, fun _ => true, false⟩

/-- An audio environment: backend present, cache valid at once, playback
raises. -/
def envAudioPlayFails : AudioEnv := ⟨true, fun _ => true, true⟩

/-! # Theorems -/

/-! ## C3: the per-word task orchestration -/

/-- C3: a word filtered as too simple causes no reset, presentation or fetch;
otherwise the display is reset for the normalized word, the image task and
the full-dictionary-data task are spawned unconditionally, and the
translation is presented from cache with tag `"Cache"` (no fetch spawned) on
a cache hit, while on a cache miss `fetch_word_translation` is invoked
exactly once. -/
theorem process_word_cache_first (env : WordEnv) (w : String) (lvl : Nat) :
    ((env.is_word_too_simple w lvl).1 = true →
      process_word_parallel env w lvl = emptyWordEffects) ∧
    ((env.is_word_too_simple w lvl).1 = false →
      (process_word_parallel env w lvl).resets = [(env.is_word_too_simple w lvl).2] ∧
      (process_word_parallel env w lvl).imageTasks = [(env.is_word_too_simple w lvl).2] ∧
      (process_word_parallel env w lvl).fullDataTasks = [(env.is_word_too_simple w lvl).2] ∧
      (∀ r, env.check_cache_only (env.is_word_too_simple w lvl).2 = some r →
        (process_word_parallel env w lvl).transUI = [(some r, "Cache")] ∧
        (process_word_parallel env w lvl).fetchTranslationCalls = []) ∧
      (env.check_cache_only (env.is_word_too_simple w lvl).2 = none →
        (process_word_parallel env w lvl).fetchTranslationCalls =
          [(env.is_word_too_simple w lvl).2])) := by
  constructor
  · intro h
    simp [process_word_parallel, h]
  · intro h
    refine ⟨?_, ?_, ?_, ?_, ?_⟩
    · simp [process_word_parallel, h]
    · simp [process_word_parallel, h]
    · simp [process_word_parallel, h]
    · intro r hr
      simp [process_word_parallel, h, hr, emptyWordEffects]
    · intro hn
      simp [process_word_parallel, h, hn, worker_trans]

/-- Example instantiating C3 at a concrete cache-hit environment. -/
theorem process_word_cache_first_witness :
    (envCacheHit.is_word_too_simple "hello" 3).1 = false ∧
    (process_word_parallel envCacheHit "hello" 3).transUI = [(some ⟨7, true⟩, "Cache")] ∧
    (process_word_parallel envCacheHit "hello" 3).fetchTranslationCalls = [] := by
  have h := ((process_word_cache_first envCacheHit "hello" 3).2 rfl).2.2.2.1 ⟨7, true⟩ (by rfl)
  exact ⟨rfl, h.1, h.2⟩

/-! ## C4: the clipboard throttle -/

/-- C4: a clipboard event is accepted only when at least the 500 ms window
elapsed since the last accepted event; the last-accepted timestamp becomes
`now` exactly on acceptance (and is untouched on rejection, before any
validation or dispatch); two valid events 100 ms apart yield one dispatched
lookup, two valid events 600 ms apart yield two. -/
theorem clipboard_throttle (last now : Nat) (clip : Option String) (w : String) :
    ((handle_clipboard_word last now clip).1 =
      if now - last < clipboardWindow then last else now) ∧
    ((handle_clipboard_word last now clip).2 = some w → clipboardWindow ≤ now - last) ∧
    runClipboard 0 [(1000, some "hello"), (1100, some "world")] = (1000, ["hello"]) ∧
    runClipboard 0 [(1000, some "hello"), (1600, some "world")] = (1600, ["hello", "world"]) := by
  refine ⟨?_, ?_, by decide, by decide⟩
  · by_cases hw : now - last < clipboardWindow
    · simp [handle_clipboard_word, hw]
    · simp only [handle_clipboard_word, hw, if_false, if_neg]
      cases clip with
      | none => simp
      | some text0 =>
        by_cases h0 : text0 = ""
        · simp [h0]
        · simp only [h0, if_false]
          split
          · rfl
          split
          · rfl
          · rfl
  · intro h
    by_cases hw : now - last < clipboardWindow
    · simp [handle_clipboard_word, hw] at h
    · omega

/-- Example instantiating C4: an accepted dispatch implies the window had
elapsed. -/
theorem clipboard_throttle_witness :
    (handle_clipboard_word 0 1000 (some "hello")).2 = some "hello" ∧
    clipboardWindow ≤ 1000 - 0 := by
  exact ⟨by decide, (clipboard_throttle 0 1000 (some "hello") "hello").2.1 (by decide)⟩

/-! ## C10: the clipboard validation -/

/-- C10: a lookup is dispatched exactly when the throttle window elapsed and
the clipboard read produced non-empty text whose stripped form has length
between 1 and 50 and consists only of ASCII letters, hyphens and apostrophes;
an empty or unreadable clipboard or failing validation dispatches nothing. -/
theorem clipboard_validation (last now : Nat) (clip : Option String) (w : String) :
    (handle_clipboard_word last now clip).2 = some w ↔
      (clipboardWindow ≤ now - last ∧ ∃ t, clip = some t ∧ t ≠ "" ∧ w = pyStrip t ∧
        0 < w.length ∧ w.length ≤ 50 ∧
        ∀ c ∈ w.toList, (isAsciiAlpha c = true ∨ c = '-' ∨ c = '\'')) := by
  have hpat : ∀ s : String, matchesWordPattern s = true ↔
      (0 < s.length ∧ ∀ c ∈ s.toList, (isAsciiAlpha c = true ∨ c = '-' ∨ c = '\'')) := by
    intro s
    simp [matchesWordPattern, List.all_eq_true, Bool.or_eq_true, or_assoc]
  by_cases hw : now - last < clipboardWindow
  · simp only [handle_clipboard_word, hw, if_true]
    constructor
    · intro h
      exact absurd h (by simp)
    · intro h
      omega
  · have hw' : clipboardWindow ≤ now - last := by omega
    simp only [handle_clipboard_word, hw, if_false]
    cases clip with
    | none => simp
    | some text0 =>
      by_cases h0 : text0 = ""
      · subst h0
        simp
      · simp only [h0, if_false]
        split
        · rename_i hlen
          constructor
          · intro h
            exact absurd h (by simp)
          · rintro ⟨-, t, ht, -, hwst, h1, h2, -⟩
            obtain rfl : text0 = t := by injection ht
            subst hwst
            exact absurd ⟨h1, h2⟩ hlen
        · rename_i hlen
          rw [not_not] at hlen
          split
          · rename_i hm
            constructor
            · intro h
              exact absurd h (by simp)
            · rintro ⟨-, t, ht, -, hwst, h1, h2, hall⟩
              obtain rfl : text0 = t := by injection ht
              subst hwst
              exact absurd ((hpat _).2 ⟨h1, hall⟩) hm
          · rename_i hm
            rw [not_not] at hm
            simp only [Option.some.injEq]
            constructor
            · rintro rfl
              exact ⟨hw', text0, rfl, h0, rfl, hlen.1, hlen.2, ((hpat _).1 hm).2⟩
            · rintro ⟨-, t, ht, -, hwst, -⟩
              obtain rfl := ht
              exact hwst.symm

/-- Example instantiating C10: a well-formed clipboard word is dispatched in
stripped form. -/
theorem clipboard_validation_witness :
    (handle_clipboard_word 0 1000 (some " hi ")).2 = some "hi" ↔
      (clipboardWindow ≤ 1000 - 0 ∧ ∃ t, (some " hi " : Option String) = some t ∧ t ≠ "" ∧
        "hi" = pyStrip t ∧ 0 < ("hi" : String).length ∧ ("hi" : String).length ≤ 50 ∧
        ∀ c ∈ ("hi" : String).toList, (isAsciiAlpha c = true ∨ c = '-' ∨ c = '\'')) :=
  clipboard_validation 0 1000 (some " hi ") "hi"

/-! ## C5: the layout cache -/

/-- C5 as stated is false: a failed query does not refresh the cache
timestamp, so two failing calls 100 ms apart both query the external
source. -/
theorem layout_query_counterexample : ¬ layoutAtMostOncePerWindow := by
  intro h
  have hq := h ⟨true, 0⟩ 1000 1100 none none (by omega) rfl rfl
  exact absurd hq (by decide)

/-- C5 amended: within the TTL the cached value is returned and the source is
not queried; a successful query returns the fresh value and refreshes the
cache, so no further query happens within the TTL after it; a failed query
fails open, returning `true`, and leaves the cache (and thus the TTL
timestamp) unchanged. -/
theorem layout_cache_amended (st : LayoutCache) (now now' : Nat) (b : Bool)
    (q q' : Option Bool) :
    (now - st.lastCheck < layoutTTL → is_english_layout st now q = (st.isEnglish, st, false)) ∧
    (layoutTTL ≤ now - st.lastCheck →
      is_english_layout st now (some b) = (b, ⟨b, now⟩, true)) ∧
    (layoutTTL ≤ now - st.lastCheck → is_english_layout st now none = (true, st, true)) ∧
    (now' - now < layoutTTL → (is_english_layout ⟨b, now⟩ now' q').2.2 = false) := by
  refine ⟨?_, ?_, ?_, ?_⟩
  · intro h
    simp [is_english_layout, h]
  · intro h
    have h' : ¬ (now - st.lastCheck < layoutTTL) := by omega
    simp [is_english_layout, h']
  · intro h
    have h' : ¬ (now - st.lastCheck < layoutTTL) := by omega
    simp [is_english_layout, h']
  · intro h
    simp [is_english_layout, h]

/-- Example instantiating C5 (amended): after a successful query the next
call within the TTL serves the cached value without querying. -/
theorem layout_cache_amended_witness :
    is_english_layout ⟨true, 0⟩ 1000 (some false) = (false, ⟨false, 1000⟩, true) ∧
    (is_english_layout ⟨false, 1000⟩ 1100 (some true)).2.2 = false := by
  exact ⟨(layout_cache_amended ⟨true, 0⟩ 1000 1100 false (some false) (some true)).2.1 (by decide),
    (layout_cache_amended ⟨false, 0⟩ 1000 1100 false (some false) (some true)).2.2.2 (by decide)⟩

/-! ## C6: the audio readiness synchronizer -/

/-- Behavior of the polling loop of `_instant_auto_pronounce`, for any start
index and fuel. -/
theorem pronounceLoop_spec (env : AudioEnv) (fuel polled : Nat) :
    (pronounceLoop env polled fuel).polls ≤ polled + fuel ∧
    (pronounceLoop env polled fuel).plays ≤ 1 ∧
    (pronounceLoop env polled fuel).streams ≤ 1 ∧
    ((∃ k, k < fuel ∧ env.validAt (polled + k) = true) →
      (pronounceLoop env polled fuel).plays = 1 ∧
      (pronounceLoop env polled fuel).streams = (if env.playFails = true then 1 else 0)) ∧
    ((∀ k, k < fuel → env.validAt (polled + k) = false) →
      (pronounceLoop env polled fuel).plays = 0 ∧
      (pronounceLoop env polled fuel).streams = 1 ∧
      (pronounceLoop env polled fuel).polls = polled + fuel) := by
  induction fuel generalizing polled with
  | zero =>
    refine ⟨by simp [pronounceLoop], by simp [pronounceLoop], by simp [pronounceLoop], ?_, ?_⟩
    · rintro ⟨k, hk, -⟩
      omega
    · intro _
      simp [pronounceLoop]
  | succ n ih =>
    by_cases hv : env.validAt polled = true
    · have hstep : pronounceLoop env polled (n + 1) =
          (if env.playFails = true then ⟨polled + 1, 1, 1⟩ else ⟨polled + 1, 1, 0⟩) := by
        by_cases hp : env.playFails = true <;> simp [pronounceLoop, hv, hp]
      rw [hstep]
      by_cases hp : env.playFails = true <;>
        simp only [hp, if_true, if_false, Bool.false_eq_true] <;>
        refine ⟨by omega, by omega, by omega, fun _ => by simp, ?_⟩ <;>
        · intro hall
          have h0 := hall 0 (by omega)
          rw [Nat.add_zero] at h0
          exact absurd hv (by simp [h0])
    · have hstep : pronounceLoop env polled (n + 1) = pronounceLoop env (polled + 1) n := by
        simp [pronounceLoop, hv]
      obtain ⟨ih1, ih2, ih3, ih4, ih5⟩ := ih (polled + 1)
      rw [hstep]
      refine ⟨by omega, ih2, ih3, ?_, ?_⟩
      · rintro ⟨k, hk, hkv⟩
        apply ih4
        cases k with
        | zero => exact absurd hkv (by simpa using hv)
        | succ m => exact ⟨m, by omega, by { convert hkv using 2; omega }⟩
      · intro hall
        have h5 := ih5 (fun k hk => by { convert hall (k + 1) (by omega) using 2; omega })
        exact ⟨h5.1, h5.2.1, by omega⟩

/-- C6 as stated is false: when the cache is valid but the cached playback
call raises, the loop breaks out and the streaming fallback also runs, so a
request with a valid cache is not fallback-free. -/
theorem audio_sync_counterexample : ¬ audioClaim := by
  intro h
  have hq := (h envAudioPlayFails).2.1 rfl ⟨0, by omega, rfl⟩
  exact absurd hq.2 (by decide)

/-- C6 amended: at most 20 polls, at most one playback call and at most one
streaming call ever; if the cache becomes valid within the bound, exactly one
cached-playback call occurs and the streaming fallback runs exactly when that
call fails; if the bound is exceeded without success, no playback call and
exactly one streaming call occur; with the backend missing nothing happens.
The outer exception handler means no failure propagates. -/
theorem audio_sync_amended (env : AudioEnv) :
    (instant_auto_pronounce env).polls ≤ 20 ∧
    (instant_auto_pronounce env).plays ≤ 1 ∧
    (instant_auto_pronounce env).streams ≤ 1 ∧
    (env.available = true → (∃ k, k < 20 ∧ env.validAt k = true) →
      (instant_auto_pronounce env).plays = 1 ∧
      (instant_auto_pronounce env).streams = (if env.playFails = true then 1 else 0)) ∧
    (env.available = true → (∀ k, k < 20 → env.validAt k = false) →
      (instant_auto_pronounce env).plays = 0 ∧
      (instant_auto_pronounce env).streams = 1 ∧
      (instant_auto_pronounce env).polls = 20) ∧
    (env.available = false → instant_auto_pronounce env = ⟨0, 0, 0⟩) := by
  obtain ⟨h1, h2, h3, h4, h5⟩ := pronounceLoop_spec env 20 0
  by_cases hav : env.available = true
  · have he : instant_auto_pronounce env = pronounceLoop env 0 20 := by
      simp [instant_auto_pronounce, hav]
    rw [he]
    refine ⟨by omega, h2, h3, ?_, ?_, ?_⟩
    · intro _ hex
      exact h4 (by simpa using hex)
    · intro _ hall
      exact h5 (by simpa using hall)
    · intro hcontra
      rw [hav] at hcontra
      exact absurd hcontra (by simp)
  · have he : instant_auto_pronounce env = ⟨0, 0, 0⟩ := by
      simp [instant_auto_pronounce, hav]
    rw [he]
    refine ⟨by decide, by decide, by decide, ?_, ?_, fun _ => rfl⟩
    · intro hcontra
      exact absurd hcontra hav
    · intro hcontra
      exact absurd hcontra hav

/-- Example instantiating C6 (amended): cache valid at once, playback
succeeds — one playback, no streaming. -/
theorem audio_sync_amended_witness :
    (instant_auto_pronounce envAudioOk).plays = 1 ∧
    (instant_auto_pronounce envAudioOk).streams = 0 := by
  have hq := (audio_sync_amended envAudioOk).2.2.2.1 rfl ⟨0, by omega, rfl⟩
  exact ⟨hq.1, by simpa using hq.2⟩

/-! ## Key-event helpers -/

theorem char_le_toNat {a b : Char} (h : a ≤ b) : a.toNat ≤ b.toNat := by
  simpa [Char.le_def, UInt32.le_def, BitVec.le_def, Char.toNat, UInt32.toNat] using h

theorem char_toNat_ofNat_of_valid (n : Nat) (h : n.isValidChar) : (Char.ofNat n).toNat = n := by
  rw [Char.ofNat, dif_pos h]
  simp [Char.ofNatAux, Char.toNat, UInt32.toNat]

theorem lookup_eq_none_of_ne {c : Char} : ∀ {l : List (Char × Char)},
    (∀ p ∈ l, p.1 ≠ c) → l.lookup c = none := by
  intro l
  induction l with
  | nil => intro _; rfl
  | cons p r ih =>
    intro h
    obtain ⟨k, v⟩ := p
    have hne : (c == k) = false := beq_eq_false_iff_ne.2 fun he => (h (k, v) (by simp)) he.symm
    simp only [List.lookup, hne]
    exact ih fun q hq => h q (by simp [hq])

theorem bugfix_keys_large : ∀ p ∈ keyboard_bug_fix, 1024 ≤ p.1.toNat := by decide

theorem lowerChar_alpha_small (c : Char) (h : isAsciiAlpha c = true) :
    (lowerChar c).toNat < 1024 := by
  rw [isAsciiAlpha, Bool.or_eq_true, Bool.and_eq_true, Bool.and_eq_true] at h
  simp only [decide_eq_true_eq] at h
  rcases h with ⟨h1, h2⟩ | ⟨h1, h2⟩
  · have hlo := char_le_toNat h1
    have hhi := char_le_toNat h2
    have ha : ('a' : Char).toNat = 97 := rfl
    have hz : ('z' : Char).toNat = 122 := rfl
    rw [ha] at hlo
    rw [hz] at hhi
    rw [lowerChar, if_neg, if_neg, if_neg]
    · omega
    · intro hcon
      rw [hcon] at hhi
      exact absurd hhi (by decide)
    · rintro ⟨hcon, -⟩
      have := char_le_toNat hcon
      have hA : ('А' : Char).toNat = 1040 := rfl
      omega
    · rintro ⟨-, hcon⟩
      have := char_le_toNat hcon
      have hZ : ('Z' : Char).toNat = 90 := rfl
      omega
  · have hlo := char_le_toNat h1
    have hhi := char_le_toNat h2
    have hA : ('A' : Char).toNat = 65 := rfl
    have hZ : ('Z' : Char).toNat = 90 := rfl
    rw [hA] at hlo
    rw [hZ] at hhi
    rw [lowerChar, if_pos ⟨h1, h2⟩]
    rw [char_toNat_ofNat_of_valid (c.toNat + 32) (Or.inl (by omega))]
    omega

theorem fixKey_alpha (c : Char) (h : isAsciiAlpha c = true) :
    fixKey (lowerStr (String.mk [c])) = none := by
  have hl : lowerStr (String.mk [c]) = String.mk [lowerChar c] := rfl
  have hnone : keyboard_bug_fix.lookup (lowerChar c) = none := by
    apply lookup_eq_none_of_ne
    intro p hp heq
    have hbig := bugfix_keys_large p hp
    have hsmall := lowerChar_alpha_small c h
    rw [heq] at hbig
    omega
  rw [hl]
  show (match keyboard_bug_fix.lookup (lowerChar c) with
    | some e => some (String.mk [e])
    | none => none) = none
  rw [hnone]

theorem normKey_alpha (c : Char) (h : isAsciiAlpha c = true) :
    normKey (String.mk [c]) = String.mk [c] := by
  rw [normKey, fixKey_alpha c h]

theorem alpha_not_skip_delim {c : Char} (h : isAsciiAlpha c = true) :
    c ∉ finishedSkipDelims := by
  intro hc
  fin_cases hc <;> exact absurd h (by decide)

theorem word_delims_subset_skip {c : Char} (h : c ∈ wordDelims) :
    c ∈ finishedSkipDelims := by
  fin_cases h <;> decide

/-- One alphabetic literal appended at the end of the line: editor text and
word accumulator both extend by that character, the finished flag stays
clear. -/
theorem on_key_event_alpha (l : List Char) (buf : String) (c : Char)
    (h : isAsciiAlpha c = true) :
    on_key_event ⟨⟨l, l.length⟩, buf, false⟩ (mkLiteralEvent c) =
      ⟨⟨⟨l ++ [c], l.length + 1⟩, buf.push c, false⟩, [], some false⟩ := by
  have hkey : normKey (String.mk [c]) = String.mk [c] := normKey_alpha c h
  simp only [on_key_event, mkLiteralEvent, hkey]
  simp [h, Editor.insert, List.take_length, List.drop_length]

/-- Typing alphabetic literals from any end-of-line state appends them to
both the editor text and the accumulator. -/
theorem runKeys_alpha (cs : List Char) : ∀ l : List Char,
    (∀ c ∈ cs, isAsciiAlpha c = true) →
    runKeys ⟨⟨l, l.length⟩, String.mk l, false⟩ (cs.map mkLiteralEvent) =
      ⟨⟨l ++ cs, (l ++ cs).length⟩, String.mk (l ++ cs), false⟩ := by
  induction cs with
  | nil =>
    intro l _
    simp [runKeys]
  | cons c cs ih =>
    intro l hall
    simp only [List.map_cons, runKeys]
    rw [on_key_event_alpha l (String.mk l) c (hall c (by simp))]
    have hpush : (String.mk l).push c = String.mk (l ++ [c]) := rfl
    have hlen : l.length + 1 = (l ++ [c]).length := by simp
    rw [hpush, hlen]
    have := ih (l ++ [c]) (fun d hd => hall d (by simp [hd]))
    rw [this]
    simp

/-! ## C9: literal typing -/

/-- C9: for every sequence of length-1 alphabetic literal key events from the
empty state, the text buffer holds exactly the concatenation of the typed
characters (cursor at the end), the word accumulator equals the same string,
and the finished flag stays clear. -/
theorem literal_typing (cs : List Char) (h : ∀ c ∈ cs, isAsciiAlpha c = true) :
    runKeys initKState (cs.map mkLiteralEvent) = ⟨⟨cs, cs.length⟩, String.mk cs, false⟩ := by
  have := runKeys_alpha cs [] h
  simpa [initKState, Editor.empty] using this

/-- Example instantiating C9 at the two-letter word `hi`. -/
theorem literal_typing_witness :
    runKeys initKState (['h', 'i'].map mkLiteralEvent) =
      ⟨⟨['h', 'i'], 2⟩, String.mk ['h', 'i'], false⟩ :=
  literal_typing ['h', 'i'] (by decide)

/-! ## C8: the finished-flag/accumulator exclusion -/

/-- Any single key event preserves the invariant that a set finished flag
comes with an empty accumulator. -/
theorem finishedInv_step (st : KState) (e : KEvent) (h : finishedInv st = true) :
    finishedInv (on_key_event st e).state = true := by
  rw [on_key_event]
  by_cases h1 : e.etype = "down"
  · rw [if_pos h1]
    exact h
  rw [if_neg h1]
  by_cases h2 : e.isEnglish = false
  · rw [if_pos h2]
    exact h
  rw [if_neg h2]
  by_cases h3 : (e.ctrl || e.alt) = true
  · rw [if_pos h3]
    exact h
  rw [if_neg h3]
  have hfincase : st.finished = true ∨ st.finished = false := by
    cases st.finished
    · exact Or.inr rfl
    · exact Or.inl rfl
  rcases hk : (normKey e.name).toList with - | ⟨c, - | ⟨d, rest⟩⟩
  · simp only [hk]
    by_cases hsp : lowerStr e.name = "space"
    · rw [if_pos hsp]
      by_cases hb : st.buffer = "" <;> simp [finishedInv, hb]
    rw [if_neg hsp]
    by_cases hen : lowerStr e.name = "enter"
    · rw [if_pos hen]
      by_cases hb : st.buffer = "" <;> simp [finishedInv, hb]
    rw [if_neg hen]
    by_cases hbs : lowerStr e.name = "backspace"
    · rw [if_pos hbs]
      simp [finishedInv]
    rw [if_neg hbs]
    by_cases hdl : lowerStr e.name = "delete"
    · rw [if_pos hdl]
      simp [finishedInv]
    rw [if_neg hdl]
    by_cases hlf : lowerStr e.name = "left"
    · rw [if_pos hlf]
      simpa [finishedInv] using h
    rw [if_neg hlf]
    by_cases hrt : lowerStr e.name = "right"
    · rw [if_pos hrt]
      simpa [finishedInv] using h
    rw [if_neg hrt]
    exact h
  · simp only [hk]
    by_cases ha : isAsciiAlpha c = true
    · rw [if_pos ha]
      rcases hfincase with hfin | hfin
      · rw [if_pos ⟨hfin, alpha_not_skip_delim ha⟩]
        simp [finishedInv]
      · rw [if_neg (fun hp => by { rw [hfin] at hp; exact absurd hp.1 (by simp) })]
        simp [finishedInv, hfin]
    rw [if_neg ha]
    by_cases hw : c ∈ wordDelims
    · rw [if_pos hw]
      by_cases hb : st.buffer = "" <;> simp [finishedInv, hb]
    rw [if_neg hw]
    rcases hfincase with hfin | hfin
    · by_cases hns : c ∈ finishedSkipDelims
      · rw [if_neg (fun hp => hp.2 hns)]
        have hbuf : st.buffer = "" := by simpa [finishedInv, hfin] using h
        simp [finishedInv, hbuf]
      · rw [if_pos ⟨hfin, hns⟩]
        simp [finishedInv]
    · rw [if_neg (fun hp => by { rw [hfin] at hp; exact absurd hp.1 (by simp) })]
      simp [finishedInv, hfin]
  · simp only [hk]
    by_cases hsp : lowerStr e.name = "space"
    · rw [if_pos hsp]
      by_cases hb : st.buffer = "" <;> simp [finishedInv, hb]
    rw [if_neg hsp]
    by_cases hen : lowerStr e.name = "enter"
    · rw [if_pos hen]
      by_cases hb : st.buffer = "" <;> simp [finishedInv, hb]
    rw [if_neg hen]
    by_cases hbs : lowerStr e.name = "backspace"
    · rw [if_pos hbs]
      simp [finishedInv]
    rw [if_neg hbs]
    by_cases hdl : lowerStr e.name = "delete"
    · rw [if_pos hdl]
      simp [finishedInv]
    rw [if_neg hdl]
    by_cases hlf : lowerStr e.name = "left"
    · rw [if_pos hlf]
      simpa [finishedInv] using h
    rw [if_neg hlf]
    by_cases hrt : lowerStr e.name = "right"
    · rw [if_pos hrt]
      simpa [finishedInv] using h
    rw [if_neg hrt]
    exact h

/-- C8: after any sequence of key events from the initial state, a set
finished flag implies an empty word accumulator. -/
theorem finished_excludes_buffer (es : List KEvent) :
    finishedInv (runKeys initKState es) = true := by
  suffices hgen : ∀ st, finishedInv st = true → ∀ es', finishedInv (runKeys st es') = true from
    hgen initKState rfl es
  intro st hst es'
  induction es' generalizing st with
  | nil => exact hst
  | cons e rest ih => exact ih _ (finishedInv_step st e hst)

/-! ## C7: the finished flag clears the buffer before the next literal -/

/-- C7: when the finished flag is set and the processed key is a length-1
literal that is not a delimiter, the text buffer is cleared and the flag
reset before the literal is inserted: the resulting editor holds exactly that
literal with the cursor after it, and the flag is clear. -/
theorem finished_clears_before_insert (st : KState) (e : KEvent) (c : Char)
    (hfin : st.finished = true)
    (hup : e.etype ≠ "down") (hen : e.isEnglish = true)
    (hctrl : e.ctrl = false) (halt : e.alt = false)
    (hkey : (normKey e.name).toList = [c])
    (hnd : c ∉ finishedSkipDelims) :
    (on_key_event st e).state.editor = ⟨[c], 1⟩ ∧
    (on_key_event st e).state.finished = false := by
  rw [on_key_event]
  rw [if_neg hup]
  rw [if_neg (by rw [hen]; simp)]
  rw [if_neg (by rw [hctrl, halt]; simp)]
  simp only [hkey]
  by_cases ha : isAsciiAlpha c = true
  · rw [if_pos ha]
    rw [if_pos (show st.finished = true ∧ c ∉ finishedSkipDelims from ⟨hfin, hnd⟩)]
    exact ⟨rfl, rfl⟩
  rw [if_neg ha]
  by_cases hw : c ∈ wordDelims
  · exact absurd (word_delims_subset_skip hw) hnd
  rw [if_neg hw]
  rw [if_pos (show st.finished = true ∧ c ∉ finishedSkipDelims from ⟨hfin, hnd⟩)]
  exact ⟨rfl, rfl⟩

/-- Example instantiating C7: buffer `"Hi."` with the flag set, then the key
`A` — the editor becomes `"A"`, not `"Hi.A"`. -/
theorem finished_clears_before_insert_witness :
    (on_key_event ⟨⟨"Hi.".toList, 3⟩, "", true⟩ ⟨"up", "A", true, false, false⟩).state.editor
      = ⟨['A'], 1⟩ ∧
    (on_key_event ⟨⟨"Hi.".toList, 3⟩, "", true⟩ ⟨"up", "A", true, false, false⟩).state.finished
      = false := by
  exact finished_clears_before_insert ⟨⟨"Hi.".toList, 3⟩, "", true⟩
    ⟨"up", "A", true, false, false⟩ 'A' rfl (by decide) rfl rfl rfl (by decide) (by decide)

/-! ## Scheduler trace lemmas -/

theorem validS_times : ∀ (tr : List (Nat × Act)) (t0 : Nat) (st : SState),
    validS t0 st tr = true → ∀ x ∈ tr, t0 ≤ x.1 := by
  intro tr
  induction tr with
  | nil =>
    intro t0 st _ x hx
    cases hx
  | cons p rest ih =>
    intro t0 st hv x hx
    obtain ⟨t, a⟩ := p
    rw [validS] at hv
    simp only [Bool.and_eq_true, decide_eq_true_eq] at hv
    obtain ⟨⟨ht, _⟩, hrest⟩ := hv
    rcases List.mem_cons.1 hx with rfl | hx'
    · exact ht
    · exact le_trans ht (ih t (stepAct t st a) hrest x hx')

theorem bnds_mem_time : ∀ (tr : List (Nat × Act)) (β : Nat),
    β ∈ bnds tr → ∃ x ∈ tr, x.1 = β := by
  intro tr
  induction tr with
  | nil =>
    intro β hβ
    rw [bnds] at hβ
    cases hβ
  | cons p rest ih =>
    intro β hβ
    obtain ⟨t, a⟩ := p
    cases a with
    | event s need =>
      rw [bnds] at hβ
      cases need with
      | true =>
        rw [if_pos rfl] at hβ
        rcases List.mem_cons.1 hβ with rfl | hβ'
        · exact ⟨(β, .event s true), List.mem_cons_self _ _, rfl⟩
        · obtain ⟨x, hx, hxβ⟩ := ih β hβ'
          exact ⟨x, List.mem_cons_of_mem _ hx, hxβ⟩
      | false =>
        rw [if_neg (by simp)] at hβ
        obtain ⟨x, hx, hxβ⟩ := ih β hβ
        exact ⟨x, List.mem_cons_of_mem _ hx, hxβ⟩
    | tbegin j =>
      rw [bnds] at hβ
      obtain ⟨x, hx, hxβ⟩ := ih β hβ
      exact ⟨x, List.mem_cons_of_mem _ hx, hxβ⟩
    | tfire j =>
      rw [bnds] at hβ
      obtain ⟨x, hx, hxβ⟩ := ih β hβ
      exact ⟨x, List.mem_cons_of_mem _ hx, hxβ⟩

theorem lastEvNeed_none_noEvents : ∀ tr : List (Nat × Act),
    lastEvNeed tr = none → noEvents tr = true := by
  intro tr
  induction tr with
  | nil => intro _; rfl
  | cons p rest ih =>
    intro h
    obtain ⟨t, a⟩ := p
    cases a with
    | event s need =>
      rw [lastEvNeed] at h
      rcases hr : lastEvNeed rest with - | b <;> rw [hr] at h <;> exact absurd h (by simp)
    | tbegin j =>
      rw [lastEvNeed] at h
      rw [noEvents]
      exact ih h
    | tfire j =>
      rw [lastEvNeed] at h
      rw [noEvents]
      exact ih h

theorem noEvents_bnds : ∀ tr : List (Nat × Act), noEvents tr = true → bnds tr = [] := by
  intro tr
  induction tr with
  | nil => intro _; rfl
  | cons p rest ih =>
    intro h
    obtain ⟨t, a⟩ := p
    cases a with
    | event s need =>
      rw [noEvents] at h
      exact absurd h (by simp)
    | tbegin j =>
      rw [noEvents] at h
      rw [bnds]
      exact ih h
    | tfire j =>
      rw [noEvents] at h
      rw [bnds]
      exact ih h

theorem lastEvNeed_true_bnds : ∀ tr : List (Nat × Act),
    lastEvNeed tr = some true → bnds tr ≠ [] := by
  intro tr
  induction tr with
  | nil =>
    intro h
    exact absurd h (by simp [lastEvNeed])
  | cons p rest ih =>
    intro h
    obtain ⟨t, a⟩ := p
    cases a with
    | event s need =>
      rw [lastEvNeed] at h
      rcases hr : lastEvNeed rest with - | b
      · rw [hr] at h
        have hn : need = true := by
          injection h with h'

        rw [bnds, hn, if_pos rfl]
        simp
      · rw [hr] at h
        have hb : b = true := by injection h
        have := ih (by rw [hr, hb])
        rw [bnds]
        cases need with
        | true => simp
        | false =>
          rw [if_neg (by simp)]
          exact this
    | tbegin j =>
      rw [lastEvNeed] at h
      rw [bnds]
      exact ih h
    | tfire j =>
      rw [lastEvNeed] at h
      rw [bnds]
      exact ih h

theorem gapsOK_tail {a : Nat} {l : List Nat} (h : gapsOK (a :: l) = true) :
    gapsOK l = true := by
  cases l with
  | nil => rfl
  | cons b r =>
    rw [gapsOK, Bool.and_eq_true] at h
    exact h.2

theorem gapsOK_head {a b : Nat} {l : List Nat} (h : gapsOK (a :: b :: l) = true) :
    b < a + debounceDelay := by
  rw [gapsOK, Bool.and_eq_true] at h
  exact of_decide_eq_true h.1

/-- The effect of one key event on the scheduler channel, given that the
handle points at the most recent timer: the buffer takes the new text, a
pending most-recent timer is cancelled, and with `need_translate` a fresh
pending timer is appended and installed in the handle. -/
theorem event_step_spec (t : Nat) (s : String) (need : Bool) (st : SState)
    (hH : HandleInv st) :
    (stepAct t st (.event s need)).buffer = s ∧
    (stepAct t st (.event s need)).fires = st.fires ∧
    (stepAct t st (.event s need)).count = (if need then st.count + 1 else st.count) ∧
    HandleInv (stepAct t st (.event s need)) ∧
    (∀ k, k + 1 < st.count → (stepAct t st (.event s need)).status k = st.status k) ∧
    (st.count ≠ 0 → (stepAct t st (.event s need)).status (st.count - 1) =
      (if st.status (st.count - 1) = .pending then .cancelled else st.status (st.count - 1))) ∧
    (need = true → (stepAct t st (.event s need)).status st.count = .pending ∧
      (stepAct t st (.event s need)).sched st.count = t) := by
  by_cases h0 : st.count = 0
  · have hh : st.handle = none := by rw [hH, if_pos h0]
    cases need with
    | false =>
      have hstep : stepAct t st (.event s false) = { st with buffer := s } := by
        simp [stepAct, trigger_sentence_update, hh]
      rw [hstep]
      refine ⟨rfl, rfl, rfl, ?_, fun k hk => rfl, fun hc => absurd h0 hc, fun hc => by cases hc⟩
      rw [HandleInv]
      exact hH
    | true =>
      have hstep : stepAct t st (.event s true) =
          { buffer := s, count := st.count + 1,
            sched := fun k => if k = st.count then t else st.sched k,
            status := fun k => if k = st.count then .pending else st.status k,
            handle := some st.count, fires := st.fires } := by
        simp [stepAct, trigger_sentence_update, hh]
      rw [hstep]
      refine ⟨rfl, rfl, rfl, ?_, ?_, fun hc => absurd h0 hc, fun _ => ⟨?_, ?_⟩⟩
      · rw [HandleInv]
        simp
      · intro k hk
        dsimp only
        exact if_neg (by omega)
      · dsimp only
        exact if_pos rfl
      · dsimp only
        exact if_pos rfl
  · have hh : st.handle = some (st.count - 1) := by rw [hH, if_neg h0]
    by_cases hp : st.status (st.count - 1) = .pending
    · cases need with
      | false =>
        have hstep : stepAct t st (.event s false) =
            { st with
              buffer := s,
              status := fun k => if k = st.count - 1 then .cancelled else st.status k } := by
          simp [stepAct, trigger_sentence_update, hh, hp]
        rw [hstep]
        refine ⟨rfl, rfl, rfl, ?_, ?_, fun _ => ?_, fun hc => by cases hc⟩
        · rw [HandleInv]
          exact hH
        · intro k hk
          dsimp only
          exact if_neg (by omega)
        · dsimp only
          rw [if_pos rfl, if_pos hp]
      | true =>
        have hstep : stepAct t st (.event s true) =
            { buffer := s, count := st.count + 1,
              sched := fun k => if k = st.count then t else st.sched k,
              status := fun k => if k = st.count then .pending
                else if k = st.count - 1 then .cancelled else st.status k,
              handle := some st.count, fires := st.fires } := by
          simp [stepAct, trigger_sentence_update, hh, hp]
        rw [hstep]
        refine ⟨rfl, rfl, rfl, ?_, ?_, fun _ => ?_, fun _ => ⟨?_, ?_⟩⟩
        · rw [HandleInv]
          simp
        · intro k hk
          dsimp only
          rw [if_neg (by omega), if_neg (by omega)]
        · dsimp only
          rw [if_neg (by omega), if_pos rfl, if_pos hp]
        · dsimp only
          exact if_pos rfl
        · dsimp only
          exact if_pos rfl
    · cases need with
      | false =>
        have hstep : stepAct t st (.event s false) = { st with buffer := s } := by
          simp [stepAct, trigger_sentence_update, hh, hp]
        rw [hstep]
        refine ⟨rfl, rfl, rfl, ?_, fun k hk => rfl, fun _ => ?_, fun hc => by cases hc⟩
        · rw [HandleInv]
          exact hH
        · dsimp only
          rw [if_neg hp]
      | true =>
        have hstep : stepAct t st (.event s true) =
            { buffer := s, count := st.count + 1,
              sched := fun k => if k = st.count then t else st.sched k,
              status := fun k => if k = st.count then .pending else st.status k,
              handle := some st.count, fires := st.fires } := by
          simp [stepAct, trigger_sentence_update, hh, hp]
        rw [hstep]
        refine ⟨rfl, rfl, rfl, ?_, ?_, fun _ => ?_, fun _ => ⟨?_, ?_⟩⟩
        · rw [HandleInv]
          simp
        · intro k hk
          dsimp only
          exact if_neg (by omega)
        · dsimp only
          rw [if_neg (by omega), if_neg hp]
        · dsimp only
          exact if_pos rfl
        · dsimp only
          exact if_pos rfl

theorem tbegin_step_spec (t j : Nat) (st : SState) (hj : j < st.count)
    (hp : st.status j = .pending) (hd : st.sched j + debounceDelay ≤ t) :
    stepAct t st (.tbegin j) =
      { st with status := fun k => if k = j then .started else st.status k } := by
  rw [stepAct, if_pos]
  rw [okAct]
  simp [hj, hp, hd]

theorem tfire_step_spec (t j : Nat) (st : SState) (hj : j < st.count)
    (hs : st.status j = .started) :
    stepAct t st (.tfire j) =
      { st with
        status := fun k => if k = j then .fired else st.status k,
        fires := st.fires ++ [(j, pyStrip st.buffer)] } := by
  rw [stepAct, if_pos]
  rw [okAct]
  simp [hj, hs]

/-- Timer-only phase: with no event actions left, only the most recent timer
can still begin and fire; the executed-callback list stays linked to its
status and the buffer does not change. -/
theorem phaseB : ∀ (tr : List (Nat × Act)) (t0 : Nat) (st : SState),
    validS t0 st tr = true → noEvents tr = true →
    NonLastCancelled st → FiresLink st →
    (runS st tr).count = st.count ∧ (runS st tr).buffer = st.buffer ∧
    NonLastCancelled (runS st tr) ∧ FiresLink (runS st tr) := by
  intro tr
  induction tr with
  | nil =>
    intro t0 st _ _ hN hF
    exact ⟨rfl, rfl, hN, hF⟩
  | cons p rest ih =>
    intro t0 st hv hne hN hF
    obtain ⟨t, a⟩ := p
    rw [validS, Bool.and_eq_true, Bool.and_eq_true] at hv
    obtain ⟨⟨ht, hok⟩, hrest⟩ := hv
    cases a with
    | event s need =>
      rw [noEvents] at hne
      exact absurd hne (by simp)
    | tbegin j =>
      rw [noEvents] at hne
      rw [okAct, Bool.and_eq_true, Bool.and_eq_true] at hok
      simp only [decide_eq_true_eq] at hok
      obtain ⟨⟨hj, hpend⟩, hdel⟩ := hok
      have hjeq : j = st.count - 1 := by
        by_contra hne'
        have hlt : j + 1 < st.count := by omega
        rw [hN j hlt] at hpend
        cases hpend
      have hfe : st.fires = [] := by
        have h2 := hF.2 (by omega : st.count ≠ 0)
        rw [← hjeq, hpend] at h2
        simpa using h2
      have hstep := tbegin_step_spec t j st hj hpend hdel
      rw [runS, hstep]
      rw [hstep] at hrest
      have hN' : NonLastCancelled
          { st with status := fun k => if k = j then .started else st.status k } := by
        intro k hk
        have hk2 : k + 1 < st.count := hk
        dsimp only
        rw [if_neg (by omega)]
        exact hN k hk2
      have hF' : FiresLink
          { st with status := fun k => if k = j then .started else st.status k } := by
        constructor
        · intro hc
          have hc2 : st.count = 0 := hc
          exact absurd hj (by omega)
        · intro hc
          have hc2 : st.count ≠ 0 := hc
          dsimp only
          rw [hfe, hjeq, if_pos rfl]
          simp
      obtain ⟨ihc, ihb, ihN, ihF⟩ := ih t _ hrest hne hN' hF'
      exact ⟨ihc, ihb, ihN, ihF⟩
    | tfire j =>
      rw [noEvents] at hne
      rw [okAct, Bool.and_eq_true] at hok
      simp only [decide_eq_true_eq] at hok
      obtain ⟨hj, hsta⟩ := hok
      have hjeq : j = st.count - 1 := by
        by_contra hne'
        have hlt : j + 1 < st.count := by omega
        rw [hN j hlt] at hsta
        cases hsta
      have hfe : st.fires = [] := by
        have h2 := hF.2 (by omega : st.count ≠ 0)
        rw [← hjeq, hsta] at h2
        simpa using h2
      have hstep := tfire_step_spec t j st hj hsta
      rw [runS, hstep]
      rw [hstep] at hrest
      have hN' : NonLastCancelled
          { st with
            status := fun k => if k = j then .fired else st.status k,
            fires := st.fires ++ [(j, pyStrip st.buffer)] } := by
        intro k hk
        have hk2 : k + 1 < st.count := hk
        dsimp only
        rw [if_neg (by omega)]
        exact hN k hk2
      have hF' : FiresLink
          { st with
            status := fun k => if k = j then .fired else st.status k,
            fires := st.fires ++ [(j, pyStrip st.buffer)] } := by
        constructor
        · intro hc
          have hc2 : st.count = 0 := hc
          exact absurd hj (by omega)
        · intro hc
          have hc2 : st.count ≠ 0 := hc
          dsimp only
          rw [hfe, hjeq, if_pos rfl, if_pos rfl]
          simp
      obtain ⟨ihc, ihb, ihN, ihF⟩ := ih t _ hrest hne hN' hF'
      exact ⟨ihc, ihb, ihN, ihF⟩

/-- Main debounce induction: from a state whose non-latest timers are all
cancelled and whose callback list is empty, a valid trace with rapid
boundaries (consecutive gaps below the debounce delay) and no trailing
events grows the timer count by the number of boundaries and keeps the
callback list linked to the status of the latest timer. -/
theorem phaseA : ∀ (tr : List (Nat × Act)) (t0 : Nat) (st : SState),
    validS t0 st tr = true →
    HandleInv st → NonLastCancelled st → LastPC st → st.fires = [] →
    gapsOK (bnds tr) = true → HeadGap st tr → lastEvNeed tr ≠ some false →
    (runS st tr).count = st.count + (bnds tr).length ∧ FiresLink (runS st tr) := by
  intro tr
  induction tr with
  | nil =>
    intro t0 st _ _ _ hL hf _ _ _
    simp only [runS, bnds, List.length_nil, Nat.add_zero]
    refine ⟨by trivial, fun _ => hf, fun hc => ?_⟩
    rw [hf]
    rcases hL (st.count - 1) (by omega) with hp | hp <;> rw [hp] <;> simp
  | cons p rest ih =>
    intro t0 st hv0 hH hN hL hf hgap hhead hlast
    obtain ⟨t, a⟩ := p
    have hv := hv0
    rw [validS, Bool.and_eq_true, Bool.and_eq_true] at hv
    obtain ⟨⟨ht', hok⟩, hrest⟩ := hv
    by_cases hnoev : lastEvNeed ((t, a) :: rest) = none
    · have hne : noEvents ((t, a) :: rest) = true := lastEvNeed_none_noEvents _ hnoev
      have hbnd : bnds ((t, a) :: rest) = [] := noEvents_bnds _ hne
      have hFL : FiresLink st := by
        refine ⟨fun _ => hf, fun hc => ?_⟩
        rw [hf]
        rcases hL (st.count - 1) (by omega) with hp | hp <;> rw [hp] <;> simp
      obtain ⟨hc, hb, hN', hF'⟩ := phaseB ((t, a) :: rest) t0 st hv0 hne hN hFL
      rw [hbnd]
      exact ⟨by simpa using hc, hF'⟩
    · have hsome : lastEvNeed ((t, a) :: rest) = some true := by
        rcases hln : lastEvNeed ((t, a) :: rest) with - | b
        · exact absurd hln hnoev
        · cases b with
          | false => exact absurd hln hlast
          | true => rfl
      cases a with
      | tfire j =>
        exfalso
        rw [okAct, Bool.and_eq_true] at hok
        simp only [decide_eq_true_eq] at hok
        obtain ⟨hj, hsta⟩ := hok
        rcases Nat.lt_or_ge (j + 1) st.count with hlt | hge
        · rw [hN j hlt] at hsta
          cases hsta
        · have hje : j + 1 = st.count := by omega
          rcases hL j hje with hp | hp <;> rw [hp] at hsta <;> cases hsta
      | tbegin j =>
        exfalso
        rw [okAct, Bool.and_eq_true, Bool.and_eq_true] at hok
        simp only [decide_eq_true_eq] at hok
        obtain ⟨⟨hj, hpend⟩, hdel⟩ := hok
        have hjeq : j = st.count - 1 := by
          by_contra hne'
          have hlt : j + 1 < st.count := by omega
          rw [hN j hlt] at hpend
          cases hpend
        have hbne : bnds ((t, Act.tbegin j) :: rest) ≠ [] := lastEvNeed_true_bnds _ hsome
        obtain ⟨β, bs, hβ⟩ : ∃ β bs, bnds ((t, Act.tbegin j) :: rest) = β :: bs := by
          rcases hb : bnds ((t, Act.tbegin j) :: rest) with - | ⟨β, bs⟩
          · exact absurd hb hbne
          · exact ⟨β, bs, rfl⟩
        have hgapβ := hhead β bs hβ (by omega) (by rw [← hjeq]; exact hpend)
        have hβr : β ∈ bnds rest := by
          rw [bnds] at hβ
          rw [hβ]
          simp
        obtain ⟨x, hx, hxβ⟩ := bnds_mem_time rest β hβr
        have hxt := validS_times rest t _ hrest x hx
        rw [hjeq] at hdel
        omega
      | event s need =>
        have hlast' : lastEvNeed rest ≠ some false := by
          intro hcon
          rw [lastEvNeed, hcon] at hsome
          simp at hsome
        cases need with
        | false =>
          obtain ⟨hbuf, hfires, hcount, hH', hlow, hlast1, -⟩ :=
            event_step_spec t s false st hH
          rw [if_neg (by simp)] at hcount
          have hbeq : bnds ((t, Act.event s false) :: rest) = bnds rest := by
            rw [bnds, if_neg (by simp)]
          have hN2 : NonLastCancelled (stepAct t st (.event s false)) := by
            intro k hk
            rw [hcount] at hk
            rw [hlow k hk]
            exact hN k hk
          have hL2 : LastPC (stepAct t st (.event s false)) := by
            intro k hk
            rw [hcount] at hk
            have hco : st.count ≠ 0 := by omega
            have hkeq : k = st.count - 1 := by omega
            rw [hkeq, hlast1 hco]
            rcases hL (st.count - 1) (by omega) with hp | hp <;> rw [hp] <;> simp
          have hf2 : (stepAct t st (.event s false)).fires = [] := by
            rw [hfires, hf]
          have hHead2 : HeadGap (stepAct t st (.event s false)) rest := by
            intro β bs hb hc0 hpend'
            exfalso
            have hc0' : st.count ≠ 0 := by
              rw [hcount] at hc0
              exact hc0
            rw [hcount] at hpend'
            rw [hlast1 hc0'] at hpend'
            by_cases hp : st.status (st.count - 1) = .pending
            · rw [if_pos hp] at hpend'
              cases hpend'
            · exact hp (by rwa [if_neg hp] at hpend')
          obtain ⟨ihc, ihF⟩ := ih t _ hrest hH' hN2 hL2 hf2
            (by rwa [hbeq] at hgap) hHead2 hlast'
          rw [runS, hbeq]
          refine ⟨?_, ihF⟩
          rw [ihc, hcount]
        | true =>
          obtain ⟨hbuf, hfires, hcount, hH', hlow, hlast1, hnew⟩ :=
            event_step_spec t s true st hH
          rw [if_pos rfl] at hcount
          have hnew' := hnew rfl
          have hbeq : bnds ((t, Act.event s true) :: rest) = t :: bnds rest := by
            rw [bnds, if_pos rfl]
          have hgap' : gapsOK (t :: bnds rest) = true := by
            rwa [hbeq] at hgap
          have hN2 : NonLastCancelled (stepAct t st (.event s true)) := by
            intro k hk
            rw [hcount] at hk
            rcases Nat.lt_or_ge (k + 1) st.count with hlt | hge
            · rw [hlow k hlt]
              exact hN k hlt
            · have hco : st.count ≠ 0 := by omega
              have hkeq : k = st.count - 1 := by omega
              rw [hkeq, hlast1 hco]
              rcases hL (st.count - 1) (by omega) with hp | hp <;> rw [hp] <;> simp
          have hL2 : LastPC (stepAct t st (.event s true)) := by
            intro k hk
            rw [hcount] at hk
            have hkeq : k = st.count := by omega
            rw [hkeq]
            exact Or.inl hnew'.1
          have hf2 : (stepAct t st (.event s true)).fires = [] := by
            rw [hfires, hf]
          have hHead2 : HeadGap (stepAct t st (.event s true)) rest := by
            intro β bs hb hc0 hpend'
            have hsched : (stepAct t st (.event s true)).sched
                ((stepAct t st (.event s true)).count - 1) = t := by
              rw [hcount, Nat.add_sub_cancel]
              exact hnew'.2
            rw [hcount, Nat.add_sub_cancel] at hpend' ⊢
            rw [hnew'.2]
            rw [hb] at hgap'
            exact gapsOK_head hgap'
          obtain ⟨ihc, ihF⟩ := ih t _ hrest hH' hN2 hL2 hf2
            (gapsOK_tail hgap') hHead2 hlast'
          rw [runS, hbeq]
          refine ⟨?_, ihF⟩
          rw [ihc, hcount]
          simp only [List.length_cons]
          omega

/-- C1 (amended): under rapid-fire boundary events — a valid trace whose
event actions end with a boundary and whose consecutive boundaries are less
than the debounce delay apart — every timer but the last is cancelled before
its callback can run: if the last timer's callback has executed, it is the
only one that ever ran, it read the stripped buffer text at fire time, and
exactly one sentence-translation fetch was issued when that text is
non-empty (none when the sentence is all whitespace); if the last timer has
not executed, no callback ran at all. -/
theorem debounce_single_fetch (tr : List (Nat × Act))
    (hv : validS 0 initSState tr = true)
    (hb : bnds tr ≠ [])
    (hg : gapsOK (bnds tr) = true)
    (hl : lastEvNeed tr ≠ some false) :
    (runS initSState tr).count = (bnds tr).length ∧
    ((runS initSState tr).status ((bnds tr).length - 1) = .fired →
      (runS initSState tr).fires =
        [((bnds tr).length - 1, pyStrip (runS initSState tr).buffer)] ∧
      networkCalls (runS initSState tr) =
        (if pyStrip (runS initSState tr).buffer = "" then []
         else [((bnds tr).length - 1, pyStrip (runS initSState tr).buffer)])) ∧
    ((runS initSState tr).status ((bnds tr).length - 1) ≠ .fired →
      (runS initSState tr).fires = []) := by
  have hlen : (bnds tr).length ≠ 0 := by
    intro hc
    exact hb (List.length_eq_zero.1 hc)
  obtain ⟨hc, hF⟩ := phaseA tr 0 initSState hv
    (by rw [HandleInv]; rfl)
    (fun j hj => absurd hj (by simp [initSState]))
    (fun j hj => absurd hj (by simp [initSState]))
    rfl hg
    (fun β bs _ hc0 _ => absurd rfl hc0)
    hl
  have hcount : (runS initSState tr).count = (bnds tr).length := by
    simpa [initSState] using hc
  have h2 := hF.2 (by rw [hcount]; exact hlen)
  rw [hcount] at h2
  refine ⟨hcount, ?_, ?_⟩
  · intro hfired
    rw [if_pos hfired] at h2
    refine ⟨h2, ?_⟩
    rw [networkCalls, h2]
    by_cases hs : pyStrip (runS initSState tr).buffer = ""
    · simp [hs]
    · simp [hs]
  · intro hnf
    rw [if_neg hnf] at h2
    exact h2

/-- C1 as stated is false at one edge: a whitespace-only buffer.  A single
space boundary whose timer fires issues zero fetches (the callback presents
the placeholder instead), not exactly one. -/
theorem debounce_claim_counterexample : ¬ debounceClaim := by
  intro h
  have hq := h [(1000, Act.event " " true), (1100, Act.tbegin 0), (1100, Act.tfire 0)]
    (by decide) (by decide) (by decide) (by decide) (by decide)
  exact absurd hq (by decide)

/-- Example instantiating C1 (amended): typing `a b c ` with all four
boundary triggers within the debounce window issues exactly one fetch, of
the stripped buffer content read when the final timer fires. -/
theorem debounce_single_fetch_witness :
    validS 0 initSState
      [(1000, Act.event "a" false), (1010, Act.event "a " true),
       (1020, Act.event "a b" false), (1030, Act.event "a b " true),
       (1040, Act.event "a b c" false), (1050, Act.event "a b c " true),
       (1200, Act.tbegin 2), (1200, Act.tfire 2)] = true ∧
    (runS initSState
      [(1000, Act.event "a" false), (1010, Act.event "a " true),
       (1020, Act.event "a b" false), (1030, Act.event "a b " true),
       (1040, Act.event "a b c" false), (1050, Act.event "a b c " true),
       (1200, Act.tbegin 2), (1200, Act.tfire 2)]).fires = [(2, "a b c")] ∧
    networkCalls (runS initSState
      [(1000, Act.event "a" false), (1010, Act.event "a " true),
       (1020, Act.event "a b" false), (1030, Act.event "a b " true),
       (1040, Act.event "a b c" false), (1050, Act.event "a b c " true),
       (1200, Act.tbegin 2), (1200, Act.tfire 2)]) = [(2, "a b c")] := by
  have h := debounce_single_fetch
    [(1000, Act.event "a" false), (1010, Act.event "a " true),
     (1020, Act.event "a b" false), (1030, Act.event "a b " true),
     (1040, Act.event "a b c" false), (1050, Act.event "a b c " true),
     (1200, Act.tbegin 2), (1200, Act.tfire 2)]
    (by decide) (by decide) (by decide) (by decide)
  have h2 := h.2.1 (by decide)
  refine ⟨by decide, ?_, ?_⟩
  · rw [h2.1]
    decide
  · rw [h2.2]
    decide

/-- Every entry of the executed-callback list belongs to an existing timer
whose status is `fired`; preserved along any valid trace. -/
theorem fires_status_inv : ∀ (tr : List (Nat × Act)) (t0 : Nat) (st : SState),
    validS t0 st tr = true → HandleInv st →
    (∀ p ∈ st.fires, p.1 < st.count ∧ st.status p.1 = .fired) →
    ∀ p ∈ (runS st tr).fires, p.1 < (runS st tr).count ∧ (runS st tr).status p.1 = .fired := by
  intro tr
  induction tr with
  | nil =>
    intro t0 st _ _ h
    simpa [runS] using h
  | cons q rest ih =>
    intro t0 st hv hH hinv
    obtain ⟨t, a⟩ := q
    rw [validS, Bool.and_eq_true, Bool.and_eq_true] at hv
    obtain ⟨⟨ht, hok⟩, hrest⟩ := hv
    rw [runS]
    cases a with
    | event s need =>
      obtain ⟨hbuf, hfires, hcount, hH', hlow, hlast1, -⟩ := event_step_spec t s need st hH
      apply ih t _ hrest hH'
      intro p hp
      rw [hfires] at hp
      obtain ⟨hplt, hpfired⟩ := hinv p hp
      constructor
      · rw [hcount]
        cases need <;> simp <;> omega
      · rcases Nat.lt_or_ge (p.1 + 1) st.count with hlt | hge
        · rw [hlow p.1 hlt]
          exact hpfired
        · have hco : st.count ≠ 0 := by omega
          have hpeq : p.1 = st.count - 1 := by omega
          rw [hpeq, hlast1 hco]
          rw [hpeq] at hpfired
          rw [hpfired]
          rw [if_neg (by decide)]
    | tbegin j =>
      rw [okAct, Bool.and_eq_true, Bool.and_eq_true] at hok
      simp only [decide_eq_true_eq] at hok
      obtain ⟨⟨hj, hpend⟩, hdel⟩ := hok
      rw [tbegin_step_spec t j st hj hpend hdel] at hrest ⊢
      apply ih t _ hrest hH
      intro p hp
      obtain ⟨hplt, hpfired⟩ := hinv p hp
      refine ⟨hplt, ?_⟩
      dsimp only
      by_cases hpj : p.1 = j
      · rw [hpj] at hpfired
        rw [hpend] at hpfired
        cases hpfired
      · rw [if_neg hpj]
        exact hpfired
    | tfire j =>
      rw [okAct, Bool.and_eq_true] at hok
      simp only [decide_eq_true_eq] at hok
      obtain ⟨hj, hsta⟩ := hok
      rw [tfire_step_spec t j st hj hsta] at hrest ⊢
      apply ih t _ hrest hH
      intro p hp
      rcases List.mem_append.1 hp with hold | hnew
      · obtain ⟨hplt, hpf⟩ := hinv p hold
        refine ⟨hplt, ?_⟩
        dsimp only
        by_cases hpj : p.1 = j
        · rw [if_pos hpj]
        · rw [if_neg hpj]
          exact hpf
      · have hpe : p = (j, pyStrip st.buffer) := by simpa using hnew
        subst hpe
        refine ⟨hj, ?_⟩
        dsimp only
        rw [if_pos rfl]

/-- C2 as stated is false: a timer whose callback has already begun cannot be
cancelled, so it still reads the buffer and performs its network call even
though a newer timer was scheduled afterwards — two timers issue network
calls in the same trace. -/
theorem only_last_calls_counterexample : ¬ onlyLastCallsClaim := by
  intro h
  have hq := h [(1000, Act.event "hello" true), (1100, Act.tbegin 0),
    (1100, Act.event "hello world" true), (1150, Act.tfire 0),
    (1200, Act.tbegin 1), (1200, Act.tfire 1)] (by decide)
    (0, "hello world") (by decide)
  exact absurd hq (by decide)

/-- C2 (amended): a prior timer that is still pending when a new timer is
scheduled is cancelled before its callback can run, and a cancelled timer
never reads the buffer nor performs its network call; only a prior timer
whose callback had already begun before the new scheduling can still perform
its call. -/
theorem cancelled_never_calls (tr : List (Nat × Act))
    (hv : validS 0 initSState tr = true) (j : Nat) (s : String)
    (hc : (runS initSState tr).status j = .cancelled) :
    (j, s) ∉ (runS initSState tr).fires := by
  intro hmem
  have hfs := fires_status_inv tr 0 initSState hv (by rw [HandleInv]; rfl)
    (by simp [initSState]) (j, s) hmem
  have h2 := hfs.2
  rw [hc] at h2
  cases h2

/-- Example instantiating C2 (amended): two boundary events 50 ms apart — the
first timer is cancelled while pending and never fires. -/
theorem cancelled_never_calls_witness :
    (runS initSState [(1000, Act.event "hi" true),
      (1050, Act.event "hi there" true)]).status 0 = .cancelled ∧
    (0, "hi") ∉ (runS initSState [(1000, Act.event "hi" true),
      (1050, Act.event "hi there" true)]).fires := by
  refine ⟨by decide, cancelled_never_calls _ (by decide) 0 "hi" (by decide)⟩
